import Mathlib

/-!
DBServer: a key-value store persisted as one JSON file

A shallow embedding of `main.go`: the global map `data`, the two persistence
functions `loadData` and `saveData`, the startup sequence of `main`, and the four
request handlers registered in `main`.

Conventions of the embedding.

* A Go `string` held in the map is a Lean `String`.  Every string that reaches the
  map was produced by a JSON decoder (the request body binding or `loadData`), and
  Go's decoder only produces valid UTF-8, so a sequence of Unicode scalar values is
  the exact content of such a string.
* The file at `config.DataFile` is a `FileState`; its text is a `List Char`
  (a file of valid UTF-8).
* `encoding/json` is not part of the repository.  `Encode` on a `map[string]string`
  and `Decode` into a `*map[string]string` are embedded after the behaviour of the
  Go standard library (version 1.22 or later): see `jsonEncode` and `jsonDecode`.
* `kvSet`, `kvGet` and `kvGetKeys` are the handlers on an allocated map, which is
  what `data` holds unless a data file whose JSON value is `null` was loaded:
  `loadData` then leaves `data` as the nil map.  `handleSet` and `handleGet` are the
  set and get handlers on the whole process state, the nil map and the lock `dataMu`
  included.
-/

namespace DBServer

/-! ## Data model -/

/-- The Go type `map[string]string` (allocated): finitely many entries, unique keys. -/
abbrev Store := AList (fun _ : String => String)

/-- The record `Config` decoded from the configuration file. -/
structure Config where
  dataFile : String
  port : String
  adminPassword : String

/-- What `os.Open` finds at `config.DataFile`. -/
inductive FileState where
  | missing
  | unreadable
  | content (text : List Char)
  deriving DecidableEq, Repr

/-! ## `encoding/json`: encoding a `map[string]string` -/

/-- The double quote character. -/
def dquote : Char := Char.ofNat 34

/-- The backslash character. -/
def bslash : Char := Char.ofNat 92

/-- The table `hex = "0123456789abcdef"` of the encoder. -/
def hexDigit (n : Nat) : Char :=
  if n < 10 then Char.ofNat (48 + n) else Char.ofNat (87 + n)

/-- One character of a JSON string literal as written by the encoder with HTML
escaping on (the default of `json.NewEncoder`): quote and backslash get a backslash,
`\b \f \n \r \t` their short form, the other characters below 0x20 and `<`, `>`, `&`
become `\u00XY`, U+2028 and U+2029 become `\u202X`, everything else is copied. -/
def escapeChar (c : Char) : List Char :=
  if c = dquote ∨ c = bslash then [bslash, c]
  else if c.toNat = 8 then [bslash, 'b']
  else if c.toNat = 12 then [bslash, 'f']
  else if c.toNat = 10 then [bslash, 'n']
  else if c.toNat = 13 then [bslash, 'r']
  else if c.toNat = 9 then [bslash, 't']
  else if c.toNat < 32 ∨ c = '<' ∨ c = '>' ∨ c = '&' then
    [bslash, 'u', '0', '0', hexDigit (c.toNat / 16), hexDigit (c.toNat % 16)]
  else if c.toNat = 8232 ∨ c.toNat = 8233 then
    [bslash, 'u', '2', '0', '2', hexDigit (c.toNat % 16)]
  else [c]

/-- The JSON string literal for a Go string, quotes included. -/
def encodeString (s : String) : List Char :=
  dquote :: (s.data.flatMap escapeChar ++ [dquote])

/-- One object member, `"key":"value"`. -/
def encodeMember (e : String × String) : List Char :=
  encodeString e.1 ++ ':' :: encodeString e.2

/-- The members of an object, separated by commas. -/
def encodeMembers : List (String × String) → List Char
  | [] => []
  | [e] => encodeMember e
  | e :: es => encodeMember e ++ ',' :: encodeMembers es

/-- The order of `strings.Compare` on keys, as "less or equal": byte-wise
lexicographic on the UTF-8 encoding, which is the lexicographic order of the code
points. -/
def keyLE : List Char → List Char → Bool
  | [], _ => true
  | _ :: _, [] => false
  | a :: s, b :: t => a.toNat < b.toNat || (a.toNat == b.toNat && keyLE s t)

/-- The entries of the map in the order the encoder writes them: sorted by key. -/
def sortedEntries (m : Store) : List (String × String) :=
  (m.entries.map fun e => (e.1, e.2)).insertionSort fun a b => keyLE a.1.data b.1.data = true

/-- The bytes `Encoder.Encode(data)` writes for an allocated map: the object with
its keys sorted, followed by a newline. -/
def jsonEncode (m : Store) : List Char :=
  '{' :: (encodeMembers (sortedEntries m) ++ ['}', '\n'])

/-! ## `encoding/json`: decoding into a `*map[string]string` -/

/-- The scanner's `isSpace`. -/
def isSpace (c : Char) : Bool :=
  c = ' ' || c = '\t' || c = '\r' || c = '\n'

/-- Skip JSON white space. -/
def skipSpace : List Char → List Char
  | [] => []
  | c :: cs => if isSpace c then skipSpace cs else c :: cs

/-- The value of one hexadecimal digit, either case, as in `getu4`. -/
def hexVal (c : Char) : Option Nat :=
  if 48 ≤ c.toNat ∧ c.toNat ≤ 57 then some (c.toNat - 48)
  else if 97 ≤ c.toNat ∧ c.toNat ≤ 102 then some (c.toNat - 87)
  else if 65 ≤ c.toNat ∧ c.toNat ≤ 70 then some (c.toNat - 55)
  else none

/-- The number written by four hexadecimal digits. -/
def hex4 (h1 h2 h3 h4 : Char) : Option Nat :=
  match hexVal h1, hexVal h2, hexVal h3, hexVal h4 with
  | some a, some b, some c, some d => some (((a * 16 + b) * 16 + c) * 16 + d)
  | _, _, _, _ => none

/-- The function `getu4`: the code unit of a `\uXXXX` escape at the head of the
input, if there is one. -/
def getu4 : List Char → Option Nat
  | b :: u :: h1 :: h2 :: h3 :: h4 :: _ =>
    if b = bslash ∧ u = 'u' then hex4 h1 h2 h3 h4 else none
  | _ => none

/-- The function `utf16.DecodeRune` where it succeeds: a high surrogate followed by
a low surrogate. -/
def decodeSurrogates (r1 r2 : Nat) : Option Char :=
  if 0xD800 ≤ r1 ∧ r1 < 0xDC00 ∧ 0xDC00 ≤ r2 ∧ r2 < 0xE000 then
    some (Char.ofNat ((r1 - 0xD800) * 1024 + (r2 - 0xDC00) + 0x10000))
  else none

/-- The character after a backslash for the one-letter escapes the scanner accepts. -/
def simpleEscape (e : Char) : Option Char :=
  if e = dquote ∨ e = bslash ∨ e = '/' then some e
  else if e = 'b' then some (Char.ofNat 8)
  else if e = 'f' then some (Char.ofNat 12)
  else if e = 'n' then some (Char.ofNat 10)
  else if e = 'r' then some (Char.ofNat 13)
  else if e = 't' then some (Char.ofNat 9)
  else none

/-- Put a decoded character in front of the result of the rest of the literal. -/
def pushChar (c : Char) (r : Option (List Char × List Char)) : Option (List Char × List Char) :=
  r.map fun p => (c :: p.1, p.2)

/-- A string literal from just after its opening quote: the scanner's
`stateInString` (a character below 0x20 or a bad escape is an error, as is the end
of the input) together with `unquote` (a surrogate code unit that is not the first
half of a valid pair becomes U+FFFD).  The result is the decoded content and the
input after the closing quote.  One unit of fuel is used per decoded character;
the length of the input is always enough. -/
def parseString : Nat → List Char → Option (List Char × List Char)
  | 0, _ => none
  | fuel + 1, cs =>
    match cs with
    | [] => none
    | c :: cs0 =>
      if c = dquote then some ([], cs0)
      else if c = bslash then
        match cs0 with
        | [] => none
        | e :: cs1 =>
          if e = 'u' then
            match cs1 with
            | h1 :: h2 :: h3 :: h4 :: cs2 =>
              match hex4 h1 h2 h3 h4 with
              | none => none
              | some rr =>
                if 0xD800 ≤ rr ∧ rr < 0xE000 then
                  match (getu4 cs2).bind (decodeSurrogates rr) with
                  | some ch => pushChar ch (parseString fuel (cs2.drop 6))
                  | none => pushChar (Char.ofNat 0xFFFD) (parseString fuel cs2)
                else pushChar (Char.ofNat rr) (parseString fuel cs2)
            | _ => none
          else
            match simpleEscape e with
            | none => none
            | some ch => pushChar ch (parseString fuel cs1)
      else if c.toNat < 32 then none
      else pushChar c (parseString fuel cs0)

/-- The value of an object member when the target is a `map[string]string`: a
string literal is stored; `null` leaves the element at its zero value, the empty
string; any other value is a type error or malformed, and `Decode` returns an error
for the whole document either way. -/
def parseValue : List Char → Option (String × List Char)
  | [] => none
  | c :: cs =>
    if c = dquote then (parseString cs.length cs).map fun p => (String.mk p.1, p.2)
    else if c = 'n' then
      match cs with
      | 'u' :: 'l' :: 'l' :: rest => some ("", rest)
      | _ => none
    else none

/-- The members of a non-empty object, from the opening quote of a key up to and
including the closing brace, in document order.  One unit of fuel is used per
member; the length of the input is always enough. -/
def parseMembers : Nat → List Char → Option (List (String × String) × List Char)
  | 0, _ => none
  | fuel + 1, input =>
    match input with
    | [] => none
    | q :: cs =>
      if q = dquote then
        match parseString cs.length cs with
        | none => none
        | some (k, cs1) =>
          match skipSpace cs1 with
          | [] => none
          | colon :: cs2 =>
            if colon = ':' then
              match parseValue (skipSpace cs2) with
              | none => none
              | some (v, cs3) =>
                match skipSpace cs3 with
                | [] => none
                | d :: cs4 =>
                  if d = '}' then some ([(String.mk k, v)], cs4)
                  else if d = ',' then
                    (parseMembers fuel (skipSpace cs4)).map fun r =>
                      ((String.mk k, v) :: r.1, r.2)
                  else none
            else none
      else none

/-- What the first JSON value of a document is, for a `map[string]string` target. -/
inductive Decoded where
  | null
  | object (members : List (String × String))
  deriving DecidableEq, Repr

/-- The first JSON value of the text and the input after it, as `Decoder.Decode`
on a fresh decoder reads it for a `map[string]string` target: leading white space is
skipped, the value is read up to its last character, and nothing after it is
examined.  `none` stands for any error: end of input, malformed JSON, or a value of
the wrong type. -/
def decodeValue (text : List Char) : Option (Decoded × List Char) :=
  match skipSpace text with
  | [] => none
  | c :: cs =>
    if c = '{' then
      match skipSpace cs with
      | [] => none
      | d :: cs1 =>
        if d = '}' then some (.object [], cs1)
        else (parseMembers text.length (d :: cs1)).map fun r => (.object r.1, r.2)
    else if c = 'n' then
      match cs with
      | 'u' :: 'l' :: 'l' :: rest => some (.null, rest)
      | _ => none
    else none

/-- The result of `Decoder.Decode`: the first JSON value of the text, or an error. -/
def jsonDecode (text : List Char) : Option Decoded :=
  (decodeValue text).map fun r => r.1

/-- Following the spec's words for the file format ("a serialized mapping from
string key to string value (e.g., one JSON object)"): the whole text is one JSON
object with string keys and, apart from white space, nothing else.  The reading is
generous: a member whose value is `null` is let through. -/
def isSerializedMapping (text : List Char) : Bool :=
  match decodeValue text with
  | some (.object _, rest) => (skipSpace rest).isEmpty
  | _ => false

/-- Storing the members of a decoded object into an existing map: `Unmarshal` reuses
an allocated map and keeps its entries; each member is stored with `SetMapIndex`, in
document order, so a repeated key ends with its last value. -/
def storeMembers (data : Store) (members : List (String × String)) : Store :=
  members.foldl (fun m e => m.insert e.1 e.2) data

/-! ## `loadData`, `saveData` and the startup of `main` -/

/-- Why `loadData` returned an error. -/
inductive LoadError where
  | openFailed
  | decodeFailed
  deriving DecidableEq, Repr

/-- The function `loadData`, called with `data` holding the given map.  A file that
does not exist is not an error and leaves `data` alone; another failure of
`os.Open` is returned; otherwise the result is that of `Decode(&data)`: an error, or
the members of the object stored into the map `data` already holds, or, for the
JSON value `null`, `data` set to the nil map (`none`). -/
def loadData (file : FileState) (data : Store) : Except LoadError (Option Store) :=
  match file with
  | .missing => .ok (some data)
  | .unreadable => .error .openFailed
  | .content text =>
    match jsonDecode text with
    | none => .error .decodeFailed
    | some .null => .ok none
    | some (.object members) => .ok (some (storeMembers data members))

/-- What the environment does to one call of `saveData`: nothing, a failure of
`os.Create` (the file is left as it was), or a failure of the write after the file
was truncated (only the first `written` characters reach the file). -/
inductive SaveFault where
  | none
  | create
  | write (written : Nat)
  deriving DecidableEq, Repr

/-- Why `saveData` returned an error. -/
inductive SaveError where
  | createFailed
  | writeFailed
  deriving DecidableEq, Repr

/-- The function `saveData`: under the lock, create (truncate) the file and write
the encoding of the whole map.  The result is the error, if any, and the file
afterwards. -/
def saveData (fault : SaveFault) (data : Store) (file : FileState) :
    Except SaveError Unit × FileState :=
  match fault with
  | .create => (.error .createFailed, file)
  | .write written => (.error .writeFailed, .content ((jsonEncode data).take written))
  | .none => (.ok (), .content (jsonEncode data))

/-- How the startup part of `main` ends once the configuration is decoded. -/
inductive Startup where
  | stopped
  | serving (data : Option Store)

/-- The startup of `main` after the configuration is read: `loadData` runs on the
map created by `make`, and `main` returns before the router exists when it fails. -/
def startup (file : FileState) : Startup :=
  match loadData file ∅ with
  | .error _ => .stopped
  | .ok data => .serving data

/-! ## Request handlers -/

/-- The process state the handlers work on: the global `data` and the data file. -/
structure ServerState where
  data : Store
  file : FileState

/-- The responses the handlers send. -/
inductive Response where
  | badRequest
  | unauthorized
  | saveFailed
  | success
  | value (v : String)
  | keyNotFound
  | status (b : Bool)
  | keys (ks : List String)
  deriving DecidableEq, Repr

/-- The handler of `POST /kv/set`.  `body` is the result of `ShouldBindJSON`
(`none` when binding fails), `authHeader` the `Authorization` header. -/
def kvSet (config : Config) (authHeader : String) (body : Option (String × String))
    (fault : SaveFault) (s : ServerState) : Response × ServerState :=
  match body with
  | none => (.badRequest, s)
  | some (key, value) =>
    if authHeader != config.adminPassword then (.unauthorized, s)
    else
      let data := AList.insert key value s.data
      match saveData fault data s.file with
      | (.error _, file) => (.saveFailed, { data := data, file := file })
      | (.ok _, file) => (.success, { data := data, file := file })

/-- The handler of `GET /kv/get/:key`. -/
def kvGet (key : String) (s : ServerState) : Response :=
  match AList.lookup key s.data with
  | none => .keyNotFound
  | some value => .value value

/-- The handler of `GET /kv/is-valid/:password`. -/
def kvIsValid (config : Config) (pass : String) : Response :=
  if pass == config.adminPassword then .status true else .status true

/-- The handler of `GET /kv/get-keys`, with the keys in the order the embedding
of the map iterates; Go leaves the order of `range` over a map unspecified. -/
def kvGetKeys (s : ServerState) : Response :=
  .keys s.data.keys

/-- A request to the server. -/
inductive Request where
  | set (authHeader : String) (body : Option (String × String)) (fault : SaveFault)
  | get (key : String)
  | isValid (pass : String)
  | getKeys

/-- Serve one request. -/
def serve (config : Config) (s : ServerState) : Request → Response × ServerState
  | .set authHeader body fault => kvSet config authHeader body fault s
  | .get key => (kvGet key s, s)
  | .isValid pass => (kvIsValid config pass, s)
  | .getKeys => (kvGetKeys s, s)

/-- Serve requests one after the other and keep the final state. -/
def serveAll (config : Config) (s : ServerState) (reqs : List Request) : ServerState :=
  reqs.foldl (fun st r => (serve config st r).2) s

/-- Whether a request is a set whose body names the given key. -/
def Request.setsKey (k : String) : Request → Bool
  | .set _ (some (key, _)) _ => key == k
  | _ => false

/-! ## The process state, with the nil map and the lock

The set handler releases `dataMu` with a plain `Unlock` after `data[k] = v`, not
with `defer` as `saveData` does.  An assignment to an entry of a nil map panics; the
recovery middleware of `gin.Default()` answers the request, and `dataMu` stays
locked for the rest of the process. -/

/-- The state of the process: the global `data` (`none` is the nil map), whether
`dataMu` is still held by a handler that panicked, and the data file. -/
structure Process where
  data : Option Store
  locked : Bool
  file : FileState

/-- How a request ends: with a response of its handler, with the response of the
recovery middleware after a panic, or never, waiting for `dataMu`. -/
inductive Outcome where
  | answered (r : Response)
  | recovered
  | blocked
  deriving DecidableEq, Repr

/-- The process that serves after the startup of `main`, if startup does not stop. -/
def boot (file : FileState) : Option Process :=
  match startup file with
  | .stopped => none
  | .serving data => some { data := data, locked := false, file := file }

/-- The handler of `POST /kv/set` on the process state: binding and the credential
check come first and take no lock; `dataMu.Lock()` waits for ever when the lock is
held; `data[k] = v` panics on the nil map and the lock is not released; on an
allocated map the handler goes on as `kvSet`. -/
def handleSet (config : Config) (authHeader : String) (body : Option (String × String))
    (fault : SaveFault) (p : Process) : Outcome × Process :=
  match body with
  | none => (.answered .badRequest, p)
  | some (key, value) =>
    if authHeader != config.adminPassword then (.answered .unauthorized, p)
    else if p.locked then (.blocked, p)
    else
      match p.data with
      | none => (.recovered, { p with locked := true })
      | some m =>
        let r := kvSet config authHeader (some (key, value)) fault { data := m, file := p.file }
        (.answered r.1, { data := some r.2.data, locked := false, file := r.2.file })

/-- The handler of `GET /kv/get/:key` on the process state: `dataMu.RLock()` waits
for ever when the lock is held; reading a nil map finds no key. -/
def handleGet (key : String) (p : Process) : Outcome :=
  if p.locked then .blocked
  else
    match p.data with
    | none => .answered .keyNotFound
    | some m => .answered (kvGet key { data := m, file := p.file })

/-! ## Concurrent sets

An authorized set request takes the lock twice: once for `data[k] = v`, once
inside `saveData`.  Between the two, other requests may run. -/

/-- The key and value of an authorized set request. -/
structure SetRequest where
  key : String
  value : String

/-- One atomic step of request number `i`. -/
inductive Step where
  | mutate (i : Nat)
  | save (i : Nat)
  deriving DecidableEq, Repr

/-- The state of a run of concurrent set requests: the map, the file, and for each
request how many of its two steps it has taken. -/
structure Concurrent where
  data : Store
  file : FileState
  pc : List Nat

/-- The state before any request has taken a step. -/
def Concurrent.start (s : ServerState) (reqs : List SetRequest) : Concurrent :=
  { data := s.data, file := s.file, pc := reqs.map fun _ => 0 }

/-- Take one step, if the request it belongs to is at that step; every file write
succeeds. -/
def Concurrent.step (reqs : List SetRequest) (c : Concurrent) : Step → Option Concurrent
  | .mutate i =>
    match reqs[i]?, c.pc[i]? with
    | some r, some 0 => some { c with data := AList.insert r.key r.value c.data, pc := c.pc.set i 1 }
    | _, _ => none
  | .save i =>
    match c.pc[i]? with
    | some 1 => some { c with file := (saveData .none c.data c.file).2, pc := c.pc.set i 2 }
    | _ => none

/-- Run a schedule of steps; `none` when the schedule is not an interleaving of the
requests (a step is out of order or names no request). -/
def Concurrent.run (reqs : List SetRequest) (c : Concurrent) : List Step → Option Concurrent
  | [] => some c
  | a :: sched => (c.step reqs a).bind fun c1 => c1.run reqs sched

/-- All requests have completed. -/
def Concurrent.done (c : Concurrent) : Prop :=
  ∀ n ∈ c.pc, n = 2

/-- The updates of the requests that have taken their first step are in the map:
the key of such a request has the value written by a request on that key. -/
def UpdatesKept (reqs : List SetRequest) (c : Concurrent) : Prop :=
  c.pc.length = reqs.length ∧
  ∀ (i : Nat) (r : SetRequest) (n : Nat), reqs[i]? = some r → c.pc[i]? = some n → 1 ≤ n →
    ∃ r' ∈ reqs, r'.key = r.key ∧ AList.lookup r.key c.data = some r'.value

/-- The file holds the content of the map: a `loadData` of the file by a fresh
process (empty map) succeeds and gives a map with the same value at every key. -/
def InSync (file : FileState) (data : Store) : Prop :=
  ∃ loaded, loadData file ∅ = .ok (some loaded) ∧ ∀ k, AList.lookup k loaded = AList.lookup k data

/-! ## The in-memory map and the handlers -/

theorem kvSet_authorized (config : Config) (k v : String) (fault : SaveFault) (s : ServerState) :
    (kvSet config config.adminPassword (some (k, v)) fault s).2.data = AList.insert k v s.data := by
  cases fault <;> simp [kvSet, saveData]

theorem kvSet_rejected (config : Config) (supplied : String) (k v : String) (fault : SaveFault)
    (s : ServerState) (h : supplied ≠ config.adminPassword) :
    kvSet config supplied (some (k, v)) fault s = (.unauthorized, s) := by
  simp [kvSet, h]

theorem serve_lookup_of_not_setsKey (config : Config) (k : String) (s : ServerState) (r : Request)
    (h : r.setsKey k = false) :
    AList.lookup k (serve config s r).2.data = AList.lookup k s.data := by
  cases r with
  | set authHeader body fault =>
    cases body with
    | none => simp [serve, kvSet]
    | some kv =>
      obtain ⟨key, value⟩ := kv
      have hne : k ≠ key := by
        intro hk
        simp [Request.setsKey, hk] at h
      by_cases ha : authHeader = config.adminPassword
      · subst ha
        simp only [serve]
        rw [kvSet_authorized, AList.lookup_insert_ne hne]
      · simp [serve, kvSet_rejected config authHeader key value fault s ha]
  | get key => rfl
  | isValid pass => rfl
  | getKeys => rfl

theorem serveAll_lookup_of_not_setsKey (config : Config) (k : String) (reqs : List Request) :
    ∀ s : ServerState, (∀ r ∈ reqs, Request.setsKey k r = false) →
      AList.lookup k (serveAll config s reqs).data = AList.lookup k s.data := by
  induction reqs with
  | nil => intro s _; rfl
  | cons r reqs ih =>
    intro s h
    have h1 := ih (serve config s r).2 (fun r' hr' => h r' (List.mem_cons_of_mem _ hr'))
    have h2 := serve_lookup_of_not_setsKey config k s r (h r (List.mem_cons_self _ _))
    simpa [serveAll, h2] using h1

/-- On an allocated map: after an authorized set of `(k, v)`, whatever the save
does, and after any further requests none of which is a set on `k`, the get handler
finds `k` and answers with exactly `v`. -/
theorem get_after_set (config : Config) (s : ServerState) (k v : String) (fault : SaveFault)
    (between : List Request) (h : ∀ r ∈ between, Request.setsKey k r = false) :
    kvGet k (serveAll config (kvSet config config.adminPassword (some (k, v)) fault s).2 between)
      = .value v := by
  have h1 := serveAll_lookup_of_not_setsKey config k between
    (kvSet config config.adminPassword (some (k, v)) fault s).2 h
  rw [kvSet_authorized, AList.lookup_insert] at h1
  simp [kvGet, h1]

theorem get_after_set_witness :
    kvGet "k" (serveAll ⟨"data.json", "8080", "pw"⟩
        (kvSet ⟨"data.json", "8080", "pw"⟩ "pw" (some ("k", "v")) .none ⟨∅, .missing⟩).2
        [.set "pw" (some ("other", "w")) .create, .getKeys, .set "bad" (some ("z", "x")) .none])
      = .value "v" :=
  get_after_set ⟨"data.json", "8080", "pw"⟩ ⟨∅, .missing⟩ "k" "v" .none
    [.set "pw" (some ("other", "w")) .create, .getKeys, .set "bad" (some ("z", "x")) .none]
    (by decide)

/-- C1, the code where it breaks the claim.  The data file holds `null`: startup
does not stop and serves with `data` the nil map.  The authorized set of `(k, v)`
then panics at `data[k] = v`, is answered by the recovery middleware and leaves
`dataMu` locked, the map still nil; the get of `k` that follows waits for the lock
and never answers `v`.  On every process whose map is allocated and whose lock is
free, the same set followed by the same get answers `v`. -/
theorem set_on_nil_map_panics :
    startup (.content "null".data) = .serving none ∧
    (∃ p, boot (.content "null".data) = some p ∧ p.data = none ∧ p.locked = false ∧
      (handleSet ⟨"data.json", "8080", "pw"⟩ "pw" (some ("k", "v")) .none p).1 = .recovered ∧
      (handleSet ⟨"data.json", "8080", "pw"⟩ "pw" (some ("k", "v")) .none p).2.locked = true ∧
      (handleSet ⟨"data.json", "8080", "pw"⟩ "pw" (some ("k", "v")) .none p).2.data = none ∧
      handleGet "k" (handleSet ⟨"data.json", "8080", "pw"⟩ "pw" (some ("k", "v")) .none p).2
        = .blocked ∧
      handleGet "k" (handleSet ⟨"data.json", "8080", "pw"⟩ "pw" (some ("k", "v")) .none p).2
        ≠ .answered (.value "v")) ∧
    (∀ (config : Config) (m : Store) (file : FileState) (k v : String) (fault : SaveFault),
      handleGet k (handleSet config config.adminPassword (some (k, v)) fault
        { data := some m, locked := false, file := file }).2 = .answered (.value v)) := by
  refine ⟨rfl, ⟨⟨none, false, .content "null".data⟩, rfl, rfl, rfl, rfl, rfl, rfl, rfl, ?_⟩, ?_⟩
  · decide
  · intro config m file k v fault
    have h := get_after_set config ⟨m, file⟩ k v fault [] (by simp)
    simp only [serveAll, List.foldl] at h
    simp [handleSet, handleGet, h]

/-- C2: the set handler goes past the credential check exactly when the supplied
credential equals the configured one: with the exact credential the answer is not
`Unauthorized` and the map becomes the old map with `k` set to `v`; with any other
string, the empty string and a variant in another case included, the answer is
`Unauthorized` and nothing changes. -/
theorem set_authorized_iff (config : Config) (supplied k v : String) (fault : SaveFault)
    (s : ServerState) :
    ((kvSet config supplied (some (k, v)) fault s).1 ≠ .unauthorized
        ↔ supplied = config.adminPassword) ∧
    (supplied = config.adminPassword →
        (kvSet config supplied (some (k, v)) fault s).2.data = AList.insert k v s.data) ∧
    (supplied ≠ config.adminPassword →
        kvSet config supplied (some (k, v)) fault s = (.unauthorized, s)) ∧
    ("" ≠ config.adminPassword →
        kvSet config "" (some (k, v)) fault s = (.unauthorized, s)) ∧
    (config.adminPassword.toUpper ≠ config.adminPassword →
        kvSet config config.adminPassword.toUpper (some (k, v)) fault s = (.unauthorized, s)) ∧
    (config.adminPassword.toLower ≠ config.adminPassword →
        kvSet config config.adminPassword.toLower (some (k, v)) fault s = (.unauthorized, s)) := by
  refine ⟨?_, ?_, ?_, ?_, ?_, ?_⟩
  · by_cases h : supplied = config.adminPassword
    · subst h
      cases fault <;> simp [kvSet, saveData]
    · simp [kvSet_rejected config supplied k v fault s h, h]
  · intro h
    subst h
    exact kvSet_authorized config k v fault s
  · exact kvSet_rejected config supplied k v fault s
  · exact kvSet_rejected config "" k v fault s
  · exact kvSet_rejected config _ k v fault s
  · exact kvSet_rejected config _ k v fault s

theorem set_authorized_iff_witness :
    kvSet ⟨"data.json", "8080", "Secret"⟩ "" (some ("k", "v")) .none ⟨∅, .missing⟩
      = (.unauthorized, ⟨∅, .missing⟩) :=
  (set_authorized_iff ⟨"data.json", "8080", "Secret"⟩ "Secret" "k" "v" .none
    ⟨∅, .missing⟩).2.2.2.1 (by decide)

/-- C3, the code at a mismatching candidate: with the configured credential
`secret`, the check of the candidate `wrong` reports `true`, the same answer as for
the matching candidate `secret`; the handler reports `true` for every candidate. -/
theorem kvIsValid_mismatch_reports_true :
    "wrong" ≠ "secret" ∧
    kvIsValid ⟨"data.json", "8080", "secret"⟩ "wrong" = .status true ∧
    kvIsValid ⟨"data.json", "8080", "secret"⟩ "secret" = .status true ∧
    ∀ (config : Config) (pass : String), kvIsValid config pass = .status true := by
  refine ⟨by decide, by decide, by decide, ?_⟩
  intro config pass
  unfold kvIsValid
  split <;> rfl

/-- C4: a set with a credential that differs from the configured one, whatever the
environment would have done to a save, is answered `Unauthorized` and leaves the
map and the file exactly as they were. -/
theorem set_wrong_credential_no_effect (config : Config) (supplied k v : String)
    (fault : SaveFault) (s : ServerState) (h : supplied ≠ config.adminPassword) :
    (kvSet config supplied (some (k, v)) fault s).1 = .unauthorized ∧
    (kvSet config supplied (some (k, v)) fault s).2.data = s.data ∧
    (kvSet config supplied (some (k, v)) fault s).2.file = s.file := by
  rw [kvSet_rejected config supplied k v fault s h]
  exact ⟨rfl, rfl, rfl⟩

theorem set_wrong_credential_no_effect_witness :
    (kvSet ⟨"data.json", "8080", "secret"⟩ "Secret" (some ("k", "v")) .none
        ⟨AList.insert "a" "1" ∅, .content ['x']⟩).1 = .unauthorized ∧
    (kvSet ⟨"data.json", "8080", "secret"⟩ "Secret" (some ("k", "v")) .none
        ⟨AList.insert "a" "1" ∅, .content ['x']⟩).2.data = AList.insert "a" "1" ∅ ∧
    (kvSet ⟨"data.json", "8080", "secret"⟩ "Secret" (some ("k", "v")) .none
        ⟨AList.insert "a" "1" ∅, .content ['x']⟩).2.file = .content ['x'] :=
  set_wrong_credential_no_effect ⟨"data.json", "8080", "secret"⟩ "Secret" "k" "v" .none
    ⟨AList.insert "a" "1" ∅, .content ['x']⟩ (by decide)

/-- C7: with the correct credential, when the save fails (at `os.Create` or at the
write) the set is answered with the failure response, not with success, and the
map keeps the new entry: a get of `k` answers `v`. -/
theorem set_save_failure_not_rolled_back (config : Config) (k v : String) (fault : SaveFault)
    (s : ServerState) (h : fault ≠ .none) :
    (kvSet config config.adminPassword (some (k, v)) fault s).1 = .saveFailed ∧
    (kvSet config config.adminPassword (some (k, v)) fault s).1 ≠ .success ∧
    (kvSet config config.adminPassword (some (k, v)) fault s).2.data = AList.insert k v s.data ∧
    kvGet k (kvSet config config.adminPassword (some (k, v)) fault s).2 = .value v := by
  have hr : (kvSet config config.adminPassword (some (k, v)) fault s).1 = .saveFailed := by
    cases fault with
    | none => exact absurd rfl h
    | create => simp [kvSet, saveData]
    | write n => simp [kvSet, saveData]
  refine ⟨hr, ?_, kvSet_authorized config k v fault s, ?_⟩
  · rw [hr]; decide
  · simp [kvGet, kvSet_authorized, AList.lookup_insert]

theorem set_save_failure_not_rolled_back_witness :
    (kvSet ⟨"data.json", "8080", "pw"⟩ "pw" (some ("k", "v")) (.write 3) ⟨∅, .missing⟩).1
        = .saveFailed ∧
    (kvSet ⟨"data.json", "8080", "pw"⟩ "pw" (some ("k", "v")) (.write 3) ⟨∅, .missing⟩).1
        ≠ .success ∧
    (kvSet ⟨"data.json", "8080", "pw"⟩ "pw" (some ("k", "v")) (.write 3) ⟨∅, .missing⟩).2.data
        = AList.insert "k" "v" ∅ ∧
    kvGet "k" (kvSet ⟨"data.json", "8080", "pw"⟩ "pw" (some ("k", "v")) (.write 3)
        ⟨∅, .missing⟩).2 = .value "v" :=
  set_save_failure_not_rolled_back ⟨"data.json", "8080", "pw"⟩ "k" "v" (.write 3)
    ⟨∅, .missing⟩ (by decide)

theorem kvGet_found_iff (k : String) (s : ServerState) :
    (∃ v, kvGet k s = .value v) ↔ k ∈ s.data.keys := by
  rw [← AList.mem_keys, ← AList.lookup_isSome]
  unfold kvGet
  cases h : AList.lookup k s.data <;> simp

/-- C10: whatever order the iteration over the map takes (`ks` is any arrangement
of the keys the handler collects), the list sent by the list-keys handler has no
repetition, contains a string exactly when a get of that string finds a value, and
is as long as the map has entries; and after authorized sets of two different keys
`a` and `b` on an empty map, it is a permutation of `[a, b]`. -/
theorem getKeys_exact (s : ServerState) (ks : List String) (h : ks.Perm s.data.keys) :
    kvGetKeys s = .keys s.data.keys ∧
    ks.Nodup ∧
    (∀ k, k ∈ ks ↔ ∃ v, kvGet k s = .value v) ∧
    (∀ k, ks.count k = if AList.lookup k s.data = none then 0 else 1) ∧
    ks.length = s.data.entries.length ∧
    (∀ (config : Config) (a b va vb : String) (fa fb : SaveFault) (file : FileState), a ≠ b →
      (serveAll config ⟨∅, file⟩
        [.set config.adminPassword (some (a, va)) fa,
         .set config.adminPassword (some (b, vb)) fb]).data.keys.Perm [a, b]) := by
  have hnd : ks.Nodup := h.nodup_iff.mpr s.data.keys_nodup
  refine ⟨rfl, hnd, ?_, ?_, ?_, ?_⟩
  · intro k
    rw [kvGet_found_iff, h.mem_iff]
  · intro k
    by_cases hk : AList.lookup k s.data = none
    · have : k ∉ ks := by
        rw [h.mem_iff, ← AList.mem_keys]
        exact AList.lookup_eq_none.mp hk
      simp [hk, List.count_eq_zero_of_not_mem this]
    · have : k ∈ ks := by
        rw [h.mem_iff, ← AList.mem_keys]
        by_contra hc
        exact hk (AList.lookup_eq_none.mpr hc)
      simp [hk, List.count_eq_one_of_mem hnd this]
  · rw [h.length_eq]
    simp [AList.keys, List.keys]
  · intro config a b va vb fa fb file hab
    simp only [serveAll, List.foldl, serve]
    rw [kvSet_authorized, kvSet_authorized, AList.keys_insert, AList.keys_insert]
    simp only [AList.keys_empty, List.erase_nil]
    rw [List.erase_cons_tail (by simpa using hab)]
    exact List.Perm.swap a b []

theorem getKeys_exact_witness :
    ["a", "b"].Perm
      (serveAll ⟨"data.json", "8080", "pw"⟩ ⟨∅, .missing⟩
        [.set "pw" (some ("a", "1")) .none, .set "pw" (some ("b", "2")) .none]).data.keys ∧
    ["a", "b"].Nodup :=
  ⟨by decide,
   (getKeys_exact
      (serveAll ⟨"data.json", "8080", "pw"⟩ ⟨∅, .missing⟩
        [.set "pw" (some ("a", "1")) .none, .set "pw" (some ("b", "2")) .none])
      ["a", "b"] (by decide)).2.1⟩

/-! ## Decoding what the encoder wrote -/

theorem hexVal_hexDigit (n : Nat) (h : n < 16) : hexVal (hexDigit n) = some n := by
  interval_cases n <;> decide

theorem hex4_low (n : Nat) (h : n < 256) :
    hex4 '0' '0' (hexDigit (n / 16)) (hexDigit (n % 16)) = some n := by
  have h0 : hexVal '0' = some 0 := by decide
  have h1 := hexVal_hexDigit (n / 16) (by omega)
  have h2 := hexVal_hexDigit (n % 16) (by omega)
  simp only [hex4, h0, h1, h2]
  congr 1
  omega

theorem hex4_separator (n : Nat) :
    hex4 '2' '0' '2' (hexDigit (n % 16)) = some (8224 + n % 16) := by
  have h0 : hexVal '0' = some 0 := by decide
  have h1 : hexVal '2' = some 2 := by decide
  have h2 := hexVal_hexDigit (n % 16) (by omega)
  simp only [hex4, h0, h1, h2]

theorem char_eq_of_toNat {c : Char} {n : Nat} (h : c.toNat = n) : Char.ofNat n = c := by
  rw [← h]
  exact Char.ofNat_toNat c

theorem parseString_u (fuel : Nat) (h1 h2 h3 h4 : Char) (rest : List Char) (n : Nat)
    (hn : hex4 h1 h2 h3 h4 = some n) (hlt : n < 0xD800) :
    parseString (fuel + 1) (bslash :: 'u' :: h1 :: h2 :: h3 :: h4 :: rest)
      = pushChar (Char.ofNat n) (parseString fuel rest) := by
  have hb : bslash ≠ dquote := by decide
  have hns : ¬ (0xD800 ≤ n ∧ n < 0xE000) := by omega
  simp only [parseString, hb, if_false, if_true, hn, hns]

theorem parseString_simple (fuel : Nat) (e ch : Char) (rest : List Char) (hu : e ≠ 'u')
    (he : simpleEscape e = some ch) :
    parseString (fuel + 1) (bslash :: e :: rest) = pushChar ch (parseString fuel rest) := by
  have hb : bslash ≠ dquote := by decide
  simp only [parseString, hb, if_false, if_true, hu, he]

theorem parseString_plain (fuel : Nat) (c : Char) (rest : List Char) (hq : c ≠ dquote)
    (hb : c ≠ bslash) (hc : ¬ c.toNat < 32) :
    parseString (fuel + 1) (c :: rest) = pushChar c (parseString fuel rest) := by
  simp only [parseString, hq, hb, if_false, hc]

theorem parseString_escapeChar (fuel : Nat) (c : Char) (rest : List Char) :
    parseString (fuel + 1) (escapeChar c ++ rest) = pushChar c (parseString fuel rest) := by
  unfold escapeChar
  split_ifs with hq h8 h12 h10 h13 h9 hlow hsep
  · rcases hq with hq | hq
    · subst hq
      exact parseString_simple fuel _ _ rest (by decide) (by decide)
    · subst hq
      exact parseString_simple fuel _ _ rest (by decide) (by decide)
  · have := char_eq_of_toNat h8
    subst this
    exact parseString_simple fuel 'b' _ rest (by decide) (by decide)
  · have := char_eq_of_toNat h12
    subst this
    exact parseString_simple fuel 'f' _ rest (by decide) (by decide)
  · have := char_eq_of_toNat h10
    subst this
    exact parseString_simple fuel 'n' _ rest (by decide) (by decide)
  · have := char_eq_of_toNat h13
    subst this
    exact parseString_simple fuel 'r' _ rest (by decide) (by decide)
  · have := char_eq_of_toNat h9
    subst this
    exact parseString_simple fuel 't' _ rest (by decide) (by decide)
  · have hn : c.toNat < 256 := by
      rcases hlow with h | h | h | h
      · omega
      · subst h; decide
      · subst h; decide
      · subst h; decide
    have := parseString_u fuel '0' '0' (hexDigit (c.toNat / 16)) (hexDigit (c.toNat % 16)) rest
      c.toNat (hex4_low c.toNat hn) (by omega)
    rw [Char.ofNat_toNat] at this
    exact this
  · have hv : 8224 + c.toNat % 16 = c.toNat := by omega
    have := parseString_u fuel '2' '0' '2' (hexDigit (c.toNat % 16)) rest
      (8224 + c.toNat % 16) (hex4_separator c.toNat) (by omega)
    rw [hv, Char.ofNat_toNat] at this
    exact this
  · push_neg at hq hlow
    exact parseString_plain fuel c rest hq.1 hq.2 (by omega)

theorem parseString_escaped (s : List Char) (rest : List Char) :
    ∀ fuel, s.length < fuel →
      parseString fuel (s.flatMap escapeChar ++ dquote :: rest) = some (s, rest) := by
  induction s with
  | nil =>
    intro fuel hf
    obtain ⟨f, rfl⟩ : ∃ f, fuel = f + 1 := ⟨fuel - 1, by simp at hf; omega⟩
    simp [parseString]
  | cons c s ih =>
    intro fuel hf
    obtain ⟨f, rfl⟩ : ∃ f, fuel = f + 1 := ⟨fuel - 1, by omega⟩
    rw [List.flatMap_cons, List.append_assoc, parseString_escapeChar,
      ih f (by simpa using hf)]
    rfl

theorem escapeChar_length_pos (c : Char) : 1 ≤ (escapeChar c).length := by
  unfold escapeChar
  split_ifs <;> simp

theorem flatMap_escapeChar_length (s : List Char) :
    s.length ≤ (s.flatMap escapeChar).length := by
  induction s with
  | nil => simp
  | cons c s ih =>
    have := escapeChar_length_pos c
    simp only [List.flatMap_cons, List.length_append, List.length_cons]
    omega

theorem skipSpace_of_not_space (c : Char) (cs : List Char) (h : isSpace c = false) :
    skipSpace (c :: cs) = c :: cs := by
  simp [skipSpace, h]

theorem encodeString_append (s : String) (rest : List Char) :
    encodeString s ++ rest = dquote :: (s.data.flatMap escapeChar ++ dquote :: rest) := by
  simp [encodeString]

theorem parseString_encoded (s : String) (rest : List Char) :
    parseString (s.data.flatMap escapeChar ++ dquote :: rest).length
        (s.data.flatMap escapeChar ++ dquote :: rest) = some (s.data, rest) := by
  apply parseString_escaped
  have := flatMap_escapeChar_length s.data
  simp only [List.length_append, List.length_cons]
  omega

theorem parseValue_encodeString (v : String) (rest : List Char) :
    parseValue (encodeString v ++ rest) = some (v, rest) := by
  rw [encodeString_append]
  simp only [parseValue, if_true, parseString_encoded, Option.map_some']

theorem parseMembers_member (fuel : Nat) (k v : String) (rest : List Char) :
    parseMembers (fuel + 1) (encodeMember (k, v) ++ rest) =
      match skipSpace rest with
      | [] => none
      | d :: cs4 =>
        if d = '}' then some ([(k, v)], cs4)
        else if d = ',' then
          (parseMembers fuel (skipSpace cs4)).map fun r => ((k, v) :: r.1, r.2)
        else none := by
  have hcolon : isSpace ':' = false := by decide
  have hq : isSpace dquote = false := by decide
  have h1 : encodeMember (k, v) ++ rest
      = dquote :: (k.data.flatMap escapeChar ++ dquote :: (':' :: (encodeString v ++ rest))) := by
    simp [encodeMember, encodeString]
  have h2 : skipSpace (encodeString v ++ rest) = encodeString v ++ rest := by
    rw [encodeString_append]
    exact skipSpace_of_not_space _ _ hq
  rw [h1]
  simp only [parseMembers, if_true, parseString_encoded, skipSpace_of_not_space _ _ hcolon, h2,
    parseValue_encodeString]

theorem parseMembers_encodeMembers (es : List (String × String)) (rest : List Char) :
    es ≠ [] → ∀ fuel, es.length ≤ fuel →
      parseMembers fuel (encodeMembers es ++ '}' :: rest) = some (es, rest) := by
  have hbrace : isSpace '}' = false := by decide
  have hcomma : isSpace ',' = false := by decide
  have hq : isSpace dquote = false := by decide
  induction es with
  | nil => intro h; exact absurd rfl h
  | cons e es ih =>
    intro _ fuel hf
    obtain ⟨f, rfl⟩ : ∃ f, fuel = f + 1 := ⟨fuel - 1, by simp at hf; omega⟩
    obtain ⟨k, v⟩ := e
    cases es with
    | nil =>
      simp only [encodeMembers]
      rw [parseMembers_member, skipSpace_of_not_space _ _ hbrace]
      simp
    | cons e2 es2 =>
      have hih := ih (by simp) f (by simpa using hf)
      have hstart : skipSpace (encodeMembers (e2 :: es2) ++ '}' :: rest)
          = encodeMembers (e2 :: es2) ++ '}' :: rest := by
        have : ∃ t, encodeMembers (e2 :: es2) ++ '}' :: rest = dquote :: t := by
          cases es2 <;> simp [encodeMembers, encodeMember, encodeString]
        obtain ⟨t, ht⟩ := this
        rw [ht]
        exact skipSpace_of_not_space _ _ hq
      simp only [encodeMembers, List.append_assoc, List.cons_append]
      rw [parseMembers_member, skipSpace_of_not_space _ _ hcomma]
      have hne : (',' : Char) ≠ '}' := by decide
      simp only [hne, if_false, if_true, hstart, hih, Option.map_some']

theorem encodeMembers_length (es : List (String × String)) :
    es.length ≤ (encodeMembers es).length := by
  induction es with
  | nil => simp
  | cons e es ih =>
    cases es with
    | nil => simp [encodeMembers, encodeMember, encodeString]
    | cons e2 es2 =>
      simp only [encodeMembers, List.length_append, List.length_cons] at ih ⊢
      omega

theorem decodeValue_object (es : List (String × String)) (tail : List Char) :
    decodeValue ('{' :: (encodeMembers es ++ '}' :: tail)) = some (.object es, tail) := by
  have hopen : isSpace '{' = false := by decide
  have hbrace : isSpace '}' = false := by decide
  have hq : isSpace dquote = false := by decide
  cases es with
  | nil =>
    simp [decodeValue, encodeMembers, skipSpace_of_not_space _ _ hopen,
      skipSpace_of_not_space _ _ hbrace]
  | cons e es =>
    obtain ⟨t, ht⟩ : ∃ t, encodeMembers (e :: es) ++ '}' :: tail = dquote :: t := by
      cases es <;> simp [encodeMembers, encodeMember, encodeString]
    have hlen : (e :: es).length ≤ ('{' :: (encodeMembers (e :: es) ++ '}' :: tail)).length := by
      have := encodeMembers_length (e :: es)
      simp only [List.length_append, List.length_cons] at this ⊢
      omega
    have hp := parseMembers_encodeMembers (e :: es) tail (by simp) _ hlen
    have hne : dquote ≠ '}' := by decide
    unfold decodeValue
    rw [skipSpace_of_not_space _ _ hopen]
    simp only [if_true]
    rw [ht] at hp ⊢
    rw [skipSpace_of_not_space _ _ hq]
    simp only [hne, if_false, hp, Option.map_some']

theorem jsonDecode_object (es : List (String × String)) (tail : List Char) :
    jsonDecode ('{' :: (encodeMembers es ++ '}' :: tail)) = some (.object es) := by
  simp [jsonDecode, decodeValue_object]

theorem jsonDecode_jsonEncode (m : Store) :
    jsonDecode (jsonEncode m) = some (.object (sortedEntries m)) :=
  jsonDecode_object (sortedEntries m) ['\n']

/-! ## Storing decoded members into a map -/

theorem lookup_storeMembers (k : String) (members : List (String × String)) :
    ∀ data : Store, AList.lookup k (storeMembers data members)
      = (AList.lookup k (storeMembers ∅ members)).or (AList.lookup k data) := by
  induction members with
  | nil => intro data; simp [storeMembers]
  | cons e members ih =>
    intro data
    have h1 := ih (AList.insert e.1 e.2 data)
    have h2 := ih (AList.insert e.1 e.2 ∅)
    have e1 : storeMembers data (e :: members)
        = storeMembers (AList.insert e.1 e.2 data) members := rfl
    have e2 : storeMembers ∅ (e :: members)
        = storeMembers (AList.insert e.1 e.2 ∅) members := rfl
    rw [e1, e2, h1, h2]
    by_cases hk : k = e.1
    · subst hk
      rw [AList.lookup_insert, AList.lookup_insert]
      cases AList.lookup e.1 (storeMembers ∅ members) <;> rfl
    · rw [AList.lookup_insert_ne hk, AList.lookup_insert_ne hk, AList.lookup_empty]
      cases AList.lookup k (storeMembers ∅ members) <;> rfl

theorem lookup_storeMembers_of_mem (k v : String) (members : List (String × String))
    (hnd : (members.map Prod.fst).Nodup) (hmem : (k, v) ∈ members) :
    AList.lookup k (storeMembers ∅ members) = some v := by
  induction members with
  | nil => simp at hmem
  | cons e members ih =>
    rw [List.map_cons, List.nodup_cons] at hnd
    have hstep : storeMembers ∅ (e :: members) = storeMembers (AList.insert e.1 e.2 ∅) members := rfl
    rw [hstep, lookup_storeMembers]
    rcases List.mem_cons.mp hmem with h | h
    · subst h
      have hnone : AList.lookup k (storeMembers ∅ members) = none := by
        cases hl : AList.lookup k (storeMembers ∅ members) with
        | none => rfl
        | some w =>
          exfalso
          apply hnd.1
          clear ih hmem hstep
          have : ∀ (ms : List (String × String)) (d : Store),
              AList.lookup k (storeMembers d ms) ≠ AList.lookup k d → k ∈ ms.map Prod.fst := by
            intro ms
            induction ms with
            | nil => intro d hd; exact absurd rfl hd
            | cons e2 ms ih2 =>
              intro d hd
              by_cases hk : k = e2.1
              · simp [hk]
              · have : storeMembers d (e2 :: ms) = storeMembers (AList.insert e2.1 e2.2 d) ms := rfl
                rw [this] at hd
                have h3 := ih2 (AList.insert e2.1 e2.2 d)
                  (by rw [AList.lookup_insert_ne hk]; exact hd)
                exact List.mem_cons_of_mem _ h3
          exact this members ∅ (by rw [hl]; simp)
      rw [hnone]
      exact AList.lookup_insert (∅ : Store)
    · rw [ih hnd.2 h]
      rfl

theorem lookup_storeMembers_of_not_mem (k : String) (members : List (String × String))
    (hk : k ∉ members.map Prod.fst) :
    ∀ data : Store, AList.lookup k (storeMembers data members) = AList.lookup k data := by
  induction members with
  | nil => intro data; rfl
  | cons e members ih =>
    intro data
    rw [List.map_cons, List.mem_cons, not_or] at hk
    have : storeMembers data (e :: members) = storeMembers (AList.insert e.1 e.2 data) members := rfl
    rw [this, ih hk.2, AList.lookup_insert_ne hk.1]

theorem sortedEntries_perm (m : Store) :
    (sortedEntries m).Perm (m.entries.map fun e => (e.1, e.2)) :=
  List.perm_insertionSort _ _

theorem sortedEntries_keys_perm (m : Store) :
    ((sortedEntries m).map Prod.fst).Perm m.keys := by
  have h := (sortedEntries_perm m).map Prod.fst
  simpa [AList.keys, List.keys, Function.comp_def] using h

theorem lookup_storeMembers_sortedEntries (m : Store) (k : String) :
    AList.lookup k (storeMembers ∅ (sortedEntries m)) = AList.lookup k m := by
  cases hl : AList.lookup k m with
  | none =>
    have hk : k ∉ (sortedEntries m).map Prod.fst := by
      rw [(sortedEntries_keys_perm m).mem_iff, ← AList.mem_keys]
      exact AList.lookup_eq_none.mp hl
    rw [lookup_storeMembers_of_not_mem k _ hk]
    rfl
  | some v =>
    have hmem : (⟨k, v⟩ : Sigma fun _ : String => String) ∈ m.entries :=
      AList.mem_lookup_iff.mp hl
    have hmem2 : (k, v) ∈ sortedEntries m := by
      rw [(sortedEntries_perm m).mem_iff]
      exact List.mem_map.mpr ⟨⟨k, v⟩, hmem, rfl⟩
    exact lookup_storeMembers_of_mem k v _
      ((sortedEntries_keys_perm m).nodup_iff.mpr m.keys_nodup) hmem2

/-! ## `loadData` after `saveData` -/

theorem loadData_jsonEncode (saved data : Store) :
    loadData (.content (jsonEncode saved)) data
      = .ok (some (storeMembers data (sortedEntries saved))) := by
  simp [loadData, jsonDecode_jsonEncode]

theorem isSerializedMapping_jsonEncode (data : Store) :
    isSerializedMapping (jsonEncode data) = true := by
  have h : decodeValue (jsonEncode data) = some (.object (sortedEntries data), ['\n']) :=
    decodeValue_object (sortedEntries data) ['\n']
  simp only [isSerializedMapping, h]
  decide

theorem inSync_jsonEncode (data : Store) : InSync (.content (jsonEncode data)) data :=
  ⟨_, loadData_jsonEncode data ∅, lookup_storeMembers_sortedEntries data⟩

/-! ## The fuel of the decoder is always enough

More fuel than the length of the input never changes a result, so a `none` of
`parseString` or `parseMembers` is an error of the decoder, never a lack of fuel. -/

theorem parseString_nil (fuel : Nat) : parseString fuel [] = none := by
  cases fuel <;> rfl

theorem parseString_fuel (f1 : Nat) :
    ∀ (f2 : Nat) (cs : List Char), cs.length ≤ f1 → cs.length ≤ f2 →
      parseString f1 cs = parseString f2 cs := by
  have hbq : ¬ bslash = dquote := by decide
  induction f1 with
  | zero =>
    intro f2 cs hl1 _
    have : cs = [] := List.length_eq_zero.mp (by omega)
    subst this
    rw [parseString_nil, parseString_nil]
  | succ a ih =>
    intro f2 cs hl1 hl2
    cases cs with
    | nil => rw [parseString_nil, parseString_nil]
    | cons c cs0 =>
      obtain ⟨b, rfl⟩ : ∃ b, f2 = b + 1 := ⟨f2 - 1, by simp at hl2; omega⟩
      simp only [List.length_cons] at hl1 hl2
      have key : ∀ r : List Char, r.length ≤ cs0.length → parseString a r = parseString b r :=
        fun r hr => ih b r (by omega) (by omega)
      simp only [parseString]
      by_cases hq : c = dquote
      · simp only [hq, if_true]
      · by_cases hb : c = bslash
        · subst hb
          simp only [hbq, if_true, if_false]
          cases cs0 with
          | nil => rfl
          | cons e cs1 =>
            by_cases hu : e = 'u'
            · subst hu
              simp only [if_true]
              rcases cs1 with _ | ⟨h1, _ | ⟨h2, _ | ⟨h3, _ | ⟨h4, cs2⟩⟩⟩⟩
              · rfl
              · rfl
              · rfl
              · rfl
              · simp only []
                rw [key cs2 (by simp; omega), key (cs2.drop 6) (by simp; omega)]
            · simp only [hu, if_false]
              rw [key cs1 (by simp)]
        · simp only [hq, hb, if_false]
          rw [key cs0 (le_refl _)]

theorem skipSpace_length_le (cs : List Char) : (skipSpace cs).length ≤ cs.length := by
  induction cs with
  | nil => simp [skipSpace]
  | cons c cs ih =>
    simp only [skipSpace]
    split
    · simp only [List.length_cons]; omega
    · exact le_refl _

theorem pushChar_eq_some {c : Char} {r : Option (List Char × List Char)} {s rest : List Char}
    (h : pushChar c r = some (s, rest)) : ∃ s0, r = some (s0, rest) := by
  cases r with
  | none => simp [pushChar] at h
  | some p =>
    obtain ⟨s0, r0⟩ := p
    simp only [pushChar, Option.map_some', Option.some.injEq, Prod.mk.injEq] at h
    exact ⟨s0, by rw [h.2]⟩

theorem parseString_rest_length (fuel : Nat) :
    ∀ (cs s rest : List Char), parseString fuel cs = some (s, rest) → rest.length < cs.length := by
  have hbq : ¬ bslash = dquote := by decide
  induction fuel with
  | zero => intro cs s rest h; simp [parseString] at h
  | succ a ih =>
    intro cs s rest h
    cases cs with
    | nil => simp [parseString] at h
    | cons c cs0 =>
      simp only [parseString] at h
      by_cases hq : c = dquote
      · simp only [hq, if_true, Option.some.injEq, Prod.mk.injEq] at h
        rw [← h.2]
        simp
      · by_cases hb : c = bslash
        · subst hb
          simp only [hbq, if_true, if_false] at h
          cases cs0 with
          | nil => simp at h
          | cons e cs1 =>
            by_cases hu : e = 'u'
            · subst hu
              simp only [if_true] at h
              rcases cs1 with _ | ⟨h1, _ | ⟨h2, _ | ⟨h3, _ | ⟨h4, cs2⟩⟩⟩⟩
              · simp at h
              · simp at h
              · simp at h
              · simp at h
              · simp only [] at h
                cases hx : hex4 h1 h2 h3 h4 with
                | none => simp [hx] at h
                | some rr =>
                  simp only [hx] at h
                  split at h
                  · split at h
                    · obtain ⟨s0, h0⟩ := pushChar_eq_some h
                      have := ih _ _ _ h0
                      simp only [List.length_drop, List.length_cons] at this ⊢
                      omega
                    · obtain ⟨s0, h0⟩ := pushChar_eq_some h
                      have := ih _ _ _ h0
                      simp only [List.length_cons] at this ⊢
                      omega
                  · obtain ⟨s0, h0⟩ := pushChar_eq_some h
                    have := ih _ _ _ h0
                    simp only [List.length_cons] at this ⊢
                    omega
            · simp only [hu, if_false] at h
              cases hs : simpleEscape e with
              | none => simp [hs] at h
              | some ch =>
                simp only [hs] at h
                obtain ⟨s0, h0⟩ := pushChar_eq_some h
                have := ih _ _ _ h0
                simp only [List.length_cons] at this ⊢
                omega
        · simp only [hq, hb, if_false] at h
          split at h
          · simp at h
          · obtain ⟨s0, h0⟩ := pushChar_eq_some h
            have := ih _ _ _ h0
            simp only [List.length_cons] at this ⊢
            omega

theorem parseValue_rest_length (cs : List Char) (v : String) (rest : List Char)
    (h : parseValue cs = some (v, rest)) : rest.length < cs.length := by
  cases cs with
  | nil => simp [parseValue] at h
  | cons c cs0 =>
    simp only [parseValue] at h
    split at h
    · cases hp : parseString cs0.length cs0 with
      | none => simp [hp] at h
      | some p =>
        obtain ⟨s, r⟩ := p
        simp only [hp, Option.map_some', Option.some.injEq, Prod.mk.injEq] at h
        have := parseString_rest_length _ _ _ _ hp
        rw [← h.2]
        simp only [List.length_cons]
        omega
    · split at h
      · split at h
        · simp only [Option.some.injEq, Prod.mk.injEq] at h
          rw [← h.2]
          simp only [List.length_cons]
          omega
        · simp at h
      · simp at h

theorem parseMembers_nil (fuel : Nat) : parseMembers fuel [] = none := by
  cases fuel <;> rfl

theorem parseMembers_fuel (f1 : Nat) :
    ∀ (f2 : Nat) (input : List Char), input.length ≤ f1 → input.length ≤ f2 →
      parseMembers f1 input = parseMembers f2 input := by
  induction f1 with
  | zero =>
    intro f2 input hl1 _
    have : input = [] := List.length_eq_zero.mp (by omega)
    subst this
    rw [parseMembers_nil, parseMembers_nil]
  | succ a ih =>
    intro f2 input hl1 hl2
    cases input with
    | nil => rw [parseMembers_nil, parseMembers_nil]
    | cons q cs =>
      obtain ⟨b, rfl⟩ : ∃ b, f2 = b + 1 := ⟨f2 - 1, by simp at hl2; omega⟩
      simp only [List.length_cons] at hl1 hl2
      simp only [parseMembers]
      split
      · cases hp : parseString cs.length cs with
        | none => rfl
        | some p =>
          obtain ⟨k, cs1⟩ := p
          have l1 := parseString_rest_length _ _ _ _ hp
          simp only []
          have l2 := skipSpace_length_le cs1
          cases hs1 : skipSpace cs1 with
          | nil => rfl
          | cons colon cs2 =>
            rw [hs1] at l2
            simp only [List.length_cons] at l2
            simp only []
            split
            · have l3 := skipSpace_length_le cs2
              cases hv : parseValue (skipSpace cs2) with
              | none => rfl
              | some p2 =>
                obtain ⟨v, cs3⟩ := p2
                have l4 := parseValue_rest_length _ _ _ hv
                simp only []
                have l5 := skipSpace_length_le cs3
                cases hs3 : skipSpace cs3 with
                | nil => rfl
                | cons d cs4 =>
                  rw [hs3] at l5
                  simp only [List.length_cons] at l5
                  have l6 := skipSpace_length_le cs4
                  simp only []
                  rw [ih b (skipSpace cs4) (by omega) (by omega)]
            · rfl
      · rfl

/-- With at least as much fuel as the input is long, `parseString` and
`parseMembers` give the result they give with exactly that much. -/
theorem decoder_fuel_enough (fuel : Nat) (input : List Char) (h : input.length ≤ fuel) :
    parseString fuel input = parseString input.length input ∧
    parseMembers fuel input = parseMembers input.length input :=
  ⟨parseString_fuel fuel input.length input h (le_refl _),
   parseMembers_fuel fuel input.length input h (le_refl _)⟩

/-! ## A restart after a successful set -/

theorem kvSet_success_file (config : Config) (k v : String) (fault : SaveFault) (s : ServerState)
    (h : (kvSet config config.adminPassword (some (k, v)) fault s).1 = .success) :
    (kvSet config config.adminPassword (some (k, v)) fault s).2.file
      = .content (jsonEncode (AList.insert k v s.data)) := by
  cases fault with
  | none => simp [kvSet, saveData]
  | create => simp [kvSet, saveData] at h
  | write n => simp [kvSet, saveData] at h

/-- C6: when an authorized set of `(k, v)` is answered with success, a fresh
process (empty map) that runs `loadData` on the file just written succeeds, starts
serving, and holds a map with the same value at every key as the map that was
saved; in particular a get of `k` answers `v`. -/
theorem reload_after_set (config : Config) (s : ServerState) (k v : String) (fault : SaveFault)
    (h : (kvSet config config.adminPassword (some (k, v)) fault s).1 = .success) :
    ∃ reloaded : Store,
      loadData (kvSet config config.adminPassword (some (k, v)) fault s).2.file ∅
        = .ok (some reloaded) ∧
      startup (kvSet config config.adminPassword (some (k, v)) fault s).2.file
        = .serving (some reloaded) ∧
      (∀ file, kvGet k ⟨reloaded, file⟩ = .value v) ∧
      (∀ k', AList.lookup k' reloaded
        = AList.lookup k' (kvSet config config.adminPassword (some (k, v)) fault s).2.data) ∧
      reloaded.keys.Perm
        (kvSet config config.adminPassword (some (k, v)) fault s).2.data.keys := by
  rw [kvSet_success_file config k v fault s h, kvSet_authorized]
  have hl := lookup_storeMembers_sortedEntries (AList.insert k v s.data)
  refine ⟨_, loadData_jsonEncode _ ∅, ?_, ?_, hl, ?_⟩
  · simp [startup, loadData_jsonEncode]
  · intro file
    simp [kvGet, hl, AList.lookup_insert]
  · apply (List.perm_ext_iff_of_nodup (AList.keys_nodup _) (AList.keys_nodup _)).mpr
    intro a
    rw [← AList.mem_keys, ← AList.mem_keys, ← AList.lookup_isSome, ← AList.lookup_isSome, hl]

theorem reload_after_set_witness :
    ∃ reloaded : Store,
      loadData (kvSet ⟨"data.json", "8080", "pw"⟩ "pw" (some ("k<", "v\n")) .none
          ⟨AList.insert "a" "1" ∅, .missing⟩).2.file ∅ = .ok (some reloaded) ∧
      startup (kvSet ⟨"data.json", "8080", "pw"⟩ "pw" (some ("k<", "v\n")) .none
          ⟨AList.insert "a" "1" ∅, .missing⟩).2.file = .serving (some reloaded) ∧
      (∀ file, kvGet "k<" ⟨reloaded, file⟩ = .value "v\n") ∧
      (∀ k', AList.lookup k' reloaded
        = AList.lookup k' (kvSet ⟨"data.json", "8080", "pw"⟩ "pw" (some ("k<", "v\n")) .none
            ⟨AList.insert "a" "1" ∅, .missing⟩).2.data) ∧
      reloaded.keys.Perm
        (kvSet ⟨"data.json", "8080", "pw"⟩ "pw" (some ("k<", "v\n")) .none
            ⟨AList.insert "a" "1" ∅, .missing⟩).2.data.keys :=
  reload_after_set ⟨"data.json", "8080", "pw"⟩ ⟨AList.insert "a" "1" ∅, .missing⟩ "k<" "v\n"
    .none (by decide)

/-! ## `loadData` into a map that already has entries -/

theorem loadData_lookup (file : FileState) (m fromEmpty : Store)
    (h : loadData file ∅ = .ok (some fromEmpty)) :
    ∃ r, loadData file m = .ok (some r) ∧
      ∀ k, AList.lookup k r = (AList.lookup k fromEmpty).or (AList.lookup k m) := by
  cases file with
  | missing =>
    simp only [loadData, Except.ok.injEq, Option.some.injEq] at h
    subst h
    exact ⟨m, rfl, fun k => by simp⟩
  | unreadable => simp [loadData] at h
  | content text =>
    unfold loadData at h ⊢
    cases hd : jsonDecode text with
    | none => simp [hd] at h
    | some d =>
      cases d with
      | null => simp [hd] at h
      | object members =>
        simp only [hd, Except.ok.injEq, Option.some.injEq] at h
        subst h
        exact ⟨storeMembers m members, by simp [hd], fun k => lookup_storeMembers k members m⟩

/-- C9, a counterexample: with `a ↦ 1` in memory and the file that `saveData`
writes for the map `b ↦ 2`, `loadData` succeeds and the key `a`, which is not a key
of the file, is still in the map with its value. -/
theorem loadData_keeps_prior_entries :
    ∃ r : Store,
      loadData (.content (jsonEncode (AList.insert "b" "2" ∅))) (AList.insert "a" "1" ∅)
        = .ok (some r) ∧
      AList.lookup "a" (AList.insert "b" "2" (∅ : Store)) = none ∧
      AList.lookup "a" r = some "1" ∧
      AList.lookup "b" r = some "2" :=
  ⟨_, rfl, by decide, by decide, by decide⟩

/-- C9 as amended: when the file holds the mapping `f` (a fresh process loading it
gets a map equal to `f` at every key, as for the file `saveData` writes for `f`),
`loadData` into a map `m` succeeds and merges: every entry of `f` is in the result,
every key of `m` that is not a key of `f` keeps its value, and no other key
appears; when `m` is empty the result equals `f` at every key. -/
theorem loadData_merges (file : FileState) (m f : Store) (h : InSync file f) :
    ∃ r, loadData file m = .ok (some r) ∧
      (∀ k v, AList.lookup k f = some v → AList.lookup k r = some v) ∧
      (∀ k, AList.lookup k f = none → AList.lookup k r = AList.lookup k m) ∧
      (m = ∅ → ∀ k, AList.lookup k r = AList.lookup k f) := by
  obtain ⟨loaded, hload, heq⟩ := h
  obtain ⟨r, hr, hlook⟩ := loadData_lookup file m loaded hload
  refine ⟨r, hr, ?_, ?_, ?_⟩
  · intro k v hk
    rw [hlook, heq, hk]
    rfl
  · intro k hk
    rw [hlook, heq, hk]
    rfl
  · intro hm k
    subst hm
    rw [hlook, heq, AList.lookup_empty]
    cases AList.lookup k f <;> rfl

theorem loadData_merges_witness :
    ∃ r, loadData (.content (jsonEncode (AList.insert "b" "2" ∅))) (AList.insert "a" "1" ∅)
        = .ok (some r) ∧
      (∀ k v, AList.lookup k (AList.insert "b" "2" (∅ : Store)) = some v
        → AList.lookup k r = some v) ∧
      (∀ k, AList.lookup k (AList.insert "b" "2" (∅ : Store)) = none
        → AList.lookup k r = AList.lookup k (AList.insert "a" "1" (∅ : Store))) ∧
      (AList.insert "a" "1" (∅ : Store) = ∅
        → ∀ k, AList.lookup k r = AList.lookup k (AList.insert "b" "2" (∅ : Store))) :=
  loadData_merges (.content (jsonEncode (AList.insert "b" "2" ∅))) (AList.insert "a" "1" ∅)
    (AList.insert "b" "2" ∅) (inSync_jsonEncode _)

/-! ## Startup on a missing or undecodable file -/

/-- C8, a counterexample: the text `{"a":"b"}` followed by a line that is not JSON
is not a serialized mapping, yet `loadData` returns no error and startup goes on
to serve with the map `a ↦ b`. -/
theorem loadData_accepts_trailing_text :
    isSerializedMapping "\x7b\"a\":\"b\"\x7d\nnot json".data = false ∧
    loadData (.content "\x7b\"a\":\"b\"\x7d\nnot json".data) ∅
      = .ok (some (AList.insert "a" "b" ∅)) ∧
    startup (.content "\x7b\"a\":\"b\"\x7d\nnot json".data)
      = .serving (some (AList.insert "a" "b" ∅)) :=
  ⟨by decide, rfl, rfl⟩

/-- C8 as amended: on a file that does not exist, `loadData` applied to the empty
map returns no error and leaves the map empty (every get answers not found, the key
list is empty) and startup goes on; on a file whose first JSON value the decoder
cannot read into the map (no value, malformed, or of another type), `loadData`
returns an error and startup stops before any request is served.  A content that is
not a serialized mapping is either rejected in this way or begins with a complete
JSON value, `null` or an object followed by other text, which alone is decoded.
Every file written by `saveData` is a serialized mapping. -/
theorem loadData_missing_or_undecodable :
    (∀ data : Store, isSerializedMapping (jsonEncode data) = true) ∧
    loadData .missing ∅ = .ok (some ∅) ∧
    startup .missing = .serving (some ∅) ∧
    (∀ k file, kvGet k ⟨∅, file⟩ = .keyNotFound) ∧
    (∀ file, kvGetKeys ⟨∅, file⟩ = .keys []) ∧
    (∀ text, jsonDecode text = none →
      loadData (.content text) ∅ = .error .decodeFailed ∧ startup (.content text) = .stopped) ∧
    (∀ text, isSerializedMapping text = false →
      (loadData (.content text) ∅ = .error .decodeFailed ∧ startup (.content text) = .stopped) ∨
      (∃ rest, decodeValue text = some (.null, rest)) ∨
      (∃ members rest, decodeValue text = some (.object members, rest) ∧ skipSpace rest ≠ [])) := by
  have herr : ∀ text, jsonDecode text = none →
      loadData (.content text) ∅ = .error .decodeFailed ∧ startup (.content text) = .stopped := by
    intro text h
    simp [loadData, startup, h]
  refine ⟨isSerializedMapping_jsonEncode, rfl, rfl, fun _ _ => rfl, fun _ => rfl, herr, ?_⟩
  intro text h
  cases hd : decodeValue text with
  | none => exact Or.inl (herr text (by simp [jsonDecode, hd]))
  | some r =>
    obtain ⟨d, rest⟩ := r
    cases d with
    | null => exact Or.inr (Or.inl ⟨rest, rfl⟩)
    | object members =>
      refine Or.inr (Or.inr ⟨members, rest, rfl, ?_⟩)
      intro hrest
      simp [isSerializedMapping, hd, hrest] at h

theorem loadData_missing_or_undecodable_witness :
    loadData (.content "\x7b\"a\":\"b\"".data) ∅ = .error .decodeFailed ∧
    startup (.content "\x7b\"a\":\"b\"".data) = .stopped :=
  loadData_missing_or_undecodable.2.2.2.2.2.1 "\x7b\"a\":\"b\"".data (by decide)

/-! ## Interleaved set requests -/

theorem step_snapshot_or_pending (reqs : List SetRequest) (c c1 : Concurrent) (a : Step)
    (hstep : c.step reqs a = some c1) :
    1 ∈ c1.pc ∨ c1.file = .content (jsonEncode c1.data) := by
  cases a with
  | mutate i =>
    simp only [Concurrent.step] at hstep
    split at hstep
    · rename_i r hr hp
      simp only [Option.some.injEq] at hstep
      subst hstep
      left
      have hi : i < c.pc.length := (List.getElem?_eq_some.mp hp).1
      exact List.mem_iff_getElem?.mpr ⟨i, by simp [hi]⟩
    · simp at hstep
  | save i =>
    simp only [Concurrent.step] at hstep
    split at hstep
    · simp only [Option.some.injEq] at hstep
      subst hstep
      right
      rfl
    · simp at hstep

theorem run_preserves (reqs : List SetRequest) (s : ServerState) (sched : List Step) :
    ∀ c c1 : Concurrent, c.run reqs sched = some c1 →
      (c = Concurrent.start s reqs ∨ 1 ∈ c.pc ∨ c.file = .content (jsonEncode c.data)) →
      (c1 = Concurrent.start s reqs ∨ 1 ∈ c1.pc ∨ c1.file = .content (jsonEncode c1.data)) := by
  induction sched with
  | nil =>
    intro c c1 hrun hinv
    simp only [Concurrent.run, Option.some.injEq] at hrun
    subst hrun
    exact hinv
  | cons a sched ih =>
    intro c c1 hrun _
    simp only [Concurrent.run] at hrun
    cases hs : c.step reqs a with
    | none => simp [hs] at hrun
    | some c2 =>
      simp only [hs, Option.some_bind] at hrun
      exact ih c2 c1 hrun (Or.inr (step_snapshot_or_pending reqs c c2 a hs))

theorem step_updatesKept (reqs : List SetRequest) (c c1 : Concurrent) (a : Step)
    (hstep : c.step reqs a = some c1) (hK : UpdatesKept reqs c) : UpdatesKept reqs c1 := by
  obtain ⟨hlen, hK⟩ := hK
  cases a with
  | mutate j =>
    simp only [Concurrent.step] at hstep
    split at hstep
    · rename_i rj hrj hpj
      simp only [Option.some.injEq] at hstep
      subst hstep
      refine ⟨by simpa using hlen, ?_⟩
      intro i r n hr hn h1
      by_cases hkey : r.key = rj.key
      · exact ⟨rj, List.mem_iff_getElem?.mpr ⟨j, hrj⟩, hkey.symm, by
          rw [hkey]; exact AList.lookup_insert _⟩
      · have hij : j ≠ i := by
          intro h
          subst h
          rw [hrj] at hr
          exact hkey (by rw [Option.some.inj hr])
        simp only [List.getElem?_set_ne hij] at hn
        obtain ⟨r', hr', hk', hl'⟩ := hK i r n hr hn h1
        exact ⟨r', hr', hk', by
          show AList.lookup r.key (AList.insert rj.key rj.value c.data) = some r'.value
          rw [AList.lookup_insert_ne hkey]; exact hl'⟩
    · simp at hstep
  | save j =>
    simp only [Concurrent.step] at hstep
    split at hstep
    · rename_i hpj
      simp only [Option.some.injEq] at hstep
      subst hstep
      refine ⟨by simpa using hlen, ?_⟩
      intro i r n hr hn h1
      by_cases hij : j = i
      · subst hij
        exact hK j r 1 hr hpj (le_refl 1)
      · simp only [List.getElem?_set_ne hij] at hn
        exact hK i r n hr hn h1
    · simp at hstep

theorem run_updatesKept (reqs : List SetRequest) (sched : List Step) :
    ∀ c c1 : Concurrent, c.run reqs sched = some c1 → UpdatesKept reqs c → UpdatesKept reqs c1 := by
  induction sched with
  | nil =>
    intro c c1 hrun hK
    simp only [Concurrent.run, Option.some.injEq] at hrun
    subst hrun
    exact hK
  | cons a sched ih =>
    intro c c1 hrun hK
    simp only [Concurrent.run] at hrun
    cases hs : c.step reqs a with
    | none => simp [hs] at hrun
    | some c2 =>
      simp only [hs, Option.some_bind] at hrun
      exact ih c2 c1 hrun (step_updatesKept reqs c c2 a hs hK)

theorem start_updatesKept (reqs : List SetRequest) (s : ServerState) :
    UpdatesKept reqs (Concurrent.start s reqs) := by
  refine ⟨by simp [Concurrent.start], ?_⟩
  intro i r n _ hn h1
  have hmem : n ∈ (Concurrent.start s reqs).pc := List.mem_iff_getElem?.mpr ⟨i, hn⟩
  simp only [Concurrent.start, List.mem_map] at hmem
  obtain ⟨_, _, h0⟩ := hmem
  omega

/-- C5: take any set requests, any state to start from and any schedule of their
atomic steps (for each request first `data[k] = v`, later the save, every write
succeeding).  Once all requests have completed: if there was at least one request,
the file is exactly the snapshot of the final map and a fresh `loadData` of it
gives the final map; if the file held the content of the map at the start, it
holds the content of the map at the end; and no update is lost: the key of every
request is in the final map with the value written by a request on that key.  For
a single request served alone: after a set answered with success the file is the
snapshot of the map. -/
theorem concurrent_sets_file_matches_map (reqs : List SetRequest) (s : ServerState)
    (sched : List Step) (c : Concurrent)
    (hrun : (Concurrent.start s reqs).run reqs sched = some c) (hdone : c.done) :
    (reqs ≠ [] → c.file = .content (jsonEncode c.data) ∧ InSync c.file c.data) ∧
    (InSync s.file s.data → InSync c.file c.data) ∧
    (∀ r ∈ reqs, ∃ r' ∈ reqs, r'.key = r.key ∧ AList.lookup r.key c.data = some r'.value) ∧
    (∀ (config : Config) (k v : String) (fault : SaveFault),
      (kvSet config config.adminPassword (some (k, v)) fault s).1 = .success →
      (kvSet config config.adminPassword (some (k, v)) fault s).2.file
        = .content (jsonEncode (kvSet config config.adminPassword (some (k, v)) fault s).2.data) ∧
      InSync (kvSet config config.adminPassword (some (k, v)) fault s).2.file
        (kvSet config config.adminPassword (some (k, v)) fault s).2.data) := by
  have hinv := run_preserves reqs s sched _ c hrun (Or.inl rfl)
  have hno : 1 ∉ c.pc := fun h1 => absurd (hdone 1 h1) (by decide)
  refine ⟨?_, ?_, ?_, ?_⟩
  · intro hne
    rcases hinv with h | h | h
    · exfalso
      subst h
      cases reqs with
      | nil => exact hne rfl
      | cons r reqs =>
        have := hdone 0 (by simp [Concurrent.start])
        exact absurd this (by decide)
    · exact absurd h hno
    · exact ⟨h, h ▸ inSync_jsonEncode c.data⟩
  · intro hsync
    rcases hinv with h | h | h
    · subst h
      exact hsync
    · exact absurd h hno
    · exact h ▸ inSync_jsonEncode c.data
  · obtain ⟨hlen, hK⟩ := run_updatesKept reqs sched _ c hrun (start_updatesKept reqs s)
    intro r hr
    obtain ⟨i, hi⟩ := List.mem_iff_getElem?.mp hr
    have hlt : i < c.pc.length := by
      rw [hlen]
      exact (List.getElem?_eq_some.mp hi).1
    have hn : c.pc[i]? = some (c.pc[i]) := List.getElem?_eq_getElem hlt
    have h2 : c.pc[i] = 2 := hdone _ (List.getElem_mem hlt)
    exact hK i r _ hi hn (by omega)
  · intro config k v fault hok
    have hf := kvSet_success_file config k v fault s hok
    have hd := kvSet_authorized config k v fault s
    rw [hf, hd]
    exact ⟨rfl, inSync_jsonEncode _⟩

theorem concurrent_sets_file_matches_map_witness :
    ∃ c : Concurrent,
      (Concurrent.start ⟨∅, .missing⟩ [⟨"a", "1"⟩, ⟨"a", "2"⟩]).run [⟨"a", "1"⟩, ⟨"a", "2"⟩]
        [.mutate 0, .mutate 1, .save 1, .save 0] = some c ∧
      c.file = .content "\x7b\"a\":\"2\"\x7d\n".data ∧
      InSync c.file c.data :=
  ⟨⟨AList.insert "a" "2" (AList.insert "a" "1" ∅),
      .content (jsonEncode (AList.insert "a" "2" (AList.insert "a" "1" ∅))), [2, 2]⟩,
    rfl, by decide,
    ((concurrent_sets_file_matches_map [⟨"a", "1"⟩, ⟨"a", "2"⟩] ⟨∅, .missing⟩
        [.mutate 0, .mutate 1, .save 1, .save 0]
        ⟨AList.insert "a" "2" (AList.insert "a" "1" ∅),
          .content (jsonEncode (AList.insert "a" "2" (AList.insert "a" "1" ∅))), [2, 2]⟩
        rfl (by simp [Concurrent.done])).1 (by simp)).2⟩

end DBServer
